import Mathlib

/-!
Verification model of `metadata-ingestion/src/datahub/utilities/sql_parser.py`.

The file under verification is a thin wrapper around third-party SQL tooling
(`sqlparse`, `sqllineage`, `sql_metadata`, `networkx`).  What the wrapper
itself implements — and what we embed here, faithfully to the Python source —
is:

* the dialect-normalisation passes each parser class applies to the raw SQL
  text before handing it to the third-party parser (`lateral flatten`
  truncation, reserved-word sentinel substitution, Looker-token substitution,
  `encode` directive stripping, `${...}` template unwrapping), each modelled
  as an explicit text scanner with the same left-to-right, non-overlapping
  semantics as Python `re.sub`;
* the post-processing each class applies to the third-party parser's output
  (`<default>.` prefix stripping, sentinel reversal by exact equality,
  sorting, wildcard/call-marker filtering, join pessimism, NULL/nested-item
  filtering, alias substitution), modelled as functions over the abstract
  parser output (lists of name strings), which is universally quantified
  since the third-party parsing itself is outside this repository.

Unicode caveat: Python's `re` classes `\w`, `\s` and `str` case folding are
Unicode-aware; the embedding models their ASCII behaviour (SQL identifiers
and the reserved words at issue are ASCII), and `\s` as space/tab/CR/LF.
-/

/-- ASCII word character, modelling Python's regex `\w` / `\b` word class
(letters, digits, underscore). -/
def isWordChar (c : Char) : Bool := c.isAlpha || c.isDigit || c = '_'

/-- ASCII lower-casing of one character, modelling the case folding Python's
`re.IGNORECASE` applies to the ASCII letters. -/
def lowerChar (c : Char) : Char :=
  if c.isUpper then Char.ofNat (c.toNat + 32) else c

theorem lowerChar_of_not_upper {c : Char} (h : c.isUpper = false) : lowerChar c = c := by
  simp [lowerChar, h]

theorem lowerChar_of_not_word {c : Char} (h : isWordChar c = false) : lowerChar c = c := by
  have halpha : c.isAlpha = false := by
    cases ha : c.isAlpha
    · rfl
    · simp [isWordChar, ha] at h
  have hup : c.isUpper = false := by
    cases hu : c.isUpper
    · rfl
    · simp [Char.isAlpha, hu] at halpha
  exact lowerChar_of_not_upper hup

theorem not_whitespace_of_word {c : Char} (h : isWordChar c = true) :
    c.isWhitespace = false := by
  cases hw : c.isWhitespace
  · rfl
  · exfalso
    simp only [Char.isWhitespace, Bool.or_eq_true, decide_eq_true_eq] at hw
    rcases hw with ((h1 | h2) | h3) | h4
    · subst h1; simp [isWordChar, Char.isAlpha, Char.isUpper, Char.isLower, Char.isDigit] at h
    · subst h2; simp [isWordChar, Char.isAlpha, Char.isUpper, Char.isLower, Char.isDigit] at h
    · subst h3; simp [isWordChar, Char.isAlpha, Char.isUpper, Char.isLower, Char.isDigit] at h
    · subst h4; simp [isWordChar, Char.isAlpha, Char.isUpper, Char.isLower, Char.isDigit] at h

/-- `listPre p l` holds when the character list `p` is a prefix of `l`
(Python: the pattern matches at the current position). -/
def listPre : List Char → List Char → Bool
  | [], _ => true
  | _ :: _, [] => false
  | a :: ps, b :: ls => a = b && listPre ps ls

/-- `occursIn p l` holds when `p` occurs as a contiguous substring of `l`
(Python: `p in l` / the regex engine finds a match somewhere). -/
def occursIn (p : List Char) : List Char → Bool
  | [] => p.isEmpty
  | c :: t => listPre p (c :: t) || occursIn p t

theorem occursIn_of_listPre {p l : List Char} (h : listPre p l = true) :
    occursIn p l = true := by
  cases l with
  | nil =>
    cases p with
    | nil => rfl
    | cons a ps => simp [listPre] at h
  | cons c t => simp [occursIn, h]

theorem not_listPre_of_not_occursIn {p l : List Char} (h : occursIn p l = false) :
    listPre p l = false := by
  cases hp : listPre p l
  · rfl
  · rw [occursIn_of_listPre hp] at h; exact h.symm ▸ rfl

theorem not_occursIn_tail {p : List Char} {c : Char} {t : List Char}
    (h : occursIn p (c :: t) = false) : occursIn p t = false := by
  simp only [occursIn, Bool.or_eq_false_iff] at h
  exact h.2

theorem listPre_append_ext {p l : List Char} (y : List Char)
    (h : listPre p l = true) : listPre p (l ++ y) = true := by
  induction p generalizing l with
  | nil => rfl
  | cons a ps ih =>
    cases l with
    | nil => simp [listPre] at h
    | cons b ls =>
      simp only [listPre, Bool.and_eq_true, decide_eq_true_eq] at h
      simp only [List.cons_append, listPre, Bool.and_eq_true, decide_eq_true_eq]
      exact ⟨h.1, ih h.2⟩

theorem listPre_take {p l : List Char} (h : listPre p l = true) :
    l.take p.length = p ∧ p.length ≤ l.length := by
  induction p generalizing l with
  | nil => simp [listPre]
  | cons a ps ih =>
    cases l with
    | nil => simp [listPre] at h
    | cons b ls =>
      simp only [listPre, Bool.and_eq_true, decide_eq_true_eq] at h
      obtain ⟨h1, h2⟩ := h
      obtain ⟨ht, hl⟩ := ih h2
      subst h1
      refine ⟨?_, Nat.succ_le_succ hl⟩
      simp [List.take_succ_cons, ht]

theorem listPre_of_take {p l : List Char} (h1 : l.take p.length = p)
    (h2 : p.length ≤ l.length) : listPre p l = true := by
  induction p generalizing l with
  | nil => rfl
  | cons a ps ih =>
    cases l with
    | nil => simp at h2
    | cons b ls =>
      simp only [List.length_cons, List.take_succ_cons, List.cons.injEq] at h1
      simp only [List.length_cons, Nat.succ_le_succ_iff] at h2
      simp only [listPre, Bool.and_eq_true, decide_eq_true_eq]
      exact ⟨h1.1.symm, ih h1.2 h2⟩

/-- Case-insensitive match of the (lower-case) pattern `p` at the head of the
input; on success, returns what follows the matched text.  Models the regex
engine attempting `p` at the current position under `re.IGNORECASE`. -/
def matchCI : List Char → List Char → Option (List Char)
  | [], l => some l
  | _ :: _, [] => none
  | p :: ps, c :: cs => if lowerChar c = p then matchCI ps cs else none

theorem matchCI_some {p l r : List Char} (h : matchCI p l = some r) :
    listPre p (l.map lowerChar) = true ∧ r = l.drop p.length ∧ p.length ≤ l.length := by
  induction p generalizing l with
  | nil =>
    simp only [matchCI, Option.some.injEq] at h
    simp [listPre, ← h]
  | cons a ps ih =>
    cases l with
    | nil => simp [matchCI] at h
    | cons c cs =>
      simp only [matchCI] at h
      by_cases hc : lowerChar c = a
      · rw [if_pos hc] at h
        obtain ⟨h1, h2, h3⟩ := ih h
        refine ⟨?_, h2, Nat.succ_le_succ h3⟩
        simp only [List.map_cons, listPre, Bool.and_eq_true, decide_eq_true_eq]
        exact ⟨hc.symm, h1⟩
      · rw [if_neg hc] at h
        exact absurd h (by simp)

theorem matchCI_of_map {w rest : List Char} :
    matchCI (w.map lowerChar) (w ++ rest) = some rest := by
  induction w with
  | nil => rfl
  | cons c cs ih => simp [matchCI, ih]

theorem matchCI_none_head {a : Char} {ps : List Char} {c : Char}
    {cs : List Char} (hp : isWordChar a = true) (hc : isWordChar c = false) :
    matchCI (a :: ps) (c :: cs) = none := by
  have hl : lowerChar c = c := lowerChar_of_not_word hc
  have : lowerChar c ≠ a := by
    rw [hl]; intro he; rw [he] at hc; rw [hp] at hc; exact Bool.true_eq_false.mp hc
  simp [matchCI, this]

/-- Position of the first occurrence of `p` in `l`: returns the part before
the occurrence and the part from the occurrence on.  Models Python
`l.find(p)` combined with slicing (`sql_query[: sql_query.find(p)]`). -/
def splitAt1 (p : List Char) : List Char → Option (List Char × List Char)
  | [] => if p.isEmpty then some ([], []) else none
  | c :: cs =>
    if listPre p (c :: cs) then some ([], c :: cs)
    else
      match splitAt1 p cs with
      | some (a, b) => some (c :: a, b)
      | none => none

theorem splitAt1_none_iff {p : List Char} (l : List Char) :
    splitAt1 p l = none ↔ occursIn p l = false := by
  induction l with
  | nil =>
    cases hp : p.isEmpty
    · simp [splitAt1, occursIn, hp]
    · simp [splitAt1, occursIn, hp]
  | cons c cs ih =>
    cases hpre : listPre p (c :: cs)
    · simp only [splitAt1, hpre, Bool.false_eq_true, if_false, occursIn, Bool.false_or]
      cases hs : splitAt1 p cs with
      | some ab =>
        obtain ⟨a, b⟩ := ab
        rw [← ih, hs]
        simp
      | none =>
        rw [← ih, hs]
    · simp [splitAt1, hpre, occursIn]

theorem splitAt1_some {p : List Char} (hp : p ≠ []) :
    ∀ {l a b : List Char}, splitAt1 p l = some (a, b) →
      l = a ++ b ∧ occursIn p a = false ∧ listPre p b = true := by
  intro l
  induction l with
  | nil =>
    intro a b h
    have hpe : p.isEmpty = false := by
      cases p with
      | nil => exact absurd rfl hp
      | cons x xs => rfl
    simp [splitAt1, hpe] at h
  | cons c cs ih =>
    intro a b h
    cases hpre : listPre p (c :: cs)
    · simp only [splitAt1, hpre, Bool.false_eq_true, if_false] at h
      cases hs : splitAt1 p cs with
      | some ab =>
        obtain ⟨a', b'⟩ := ab
        rw [hs] at h
        simp only [Option.some.injEq, Prod.mk.injEq] at h
        obtain ⟨h1, h2⟩ := h
        obtain ⟨g1, g2, g3⟩ := ih hs
        subst h2
        refine ⟨by rw [← h1]; simp only [List.cons_append]; rw [g1], ?_, g3⟩
        rw [← h1]
        simp only [occursIn, Bool.or_eq_false_iff]
        refine ⟨?_, g2⟩
        cases hb : listPre p (c :: a')
        · rfl
        · exfalso
          have hext : listPre p ((c :: a') ++ b') = true := listPre_append_ext b' hb
          have hcs : (c :: a') ++ b' = c :: cs := by
            simp only [List.cons_append]
            rw [← g1]
          rw [hcs, hpre] at hext
          exact Bool.false_eq_true.mp hext
      | none =>
        rw [hs] at h
        exact absurd h (by simp)
    · simp only [splitAt1, hpre, if_true, Option.some.injEq, Prod.mk.injEq] at h
      obtain ⟨h1, h2⟩ := h
      subst h2
      refine ⟨by rw [← h1]; simp, ?_, hpre⟩
      rw [← h1]
      cases p with
      | nil => exact absurd rfl hp
      | cons x xs => rfl


/-- Word boundary to the right: the regex `\b` holds after a word character
when the rest of the input starts with a non-word character or is empty. -/
def boundHead : List Char → Bool
  | [] => true
  | c :: _ => !(isWordChar c)

/-- One scanner modelling `re.sub(rf"\b{pat}\b", tok, text, flags=re.IGNORECASE)`
for a pattern `pat` made of (lower-case) word characters: left-to-right scan,
non-overlapping matches, scanning resumes after each replaced match.
`prevW` records whether the character just before the current position is a
word character (for the left `\b`); `fuel` bounds the recursion and is
instantiated with the input length, which one step always consumes at least
one character of. -/
def swScan (pat tok : List Char) : Nat → Bool → List Char → List Char
  | 0, _, l => l
  | _ + 1, _, [] => []
  | fuel + 1, prevW, c :: cs =>
    if prevW then c :: swScan pat tok fuel (isWordChar c) cs
    else
      match matchCI pat (c :: cs) with
      | some r =>
        if boundHead r then tok ++ swScan pat tok fuel true r
        else c :: swScan pat tok fuel (isWordChar c) cs
      | none => c :: swScan pat tok fuel (isWordChar c) cs

/-- `re.sub(rf"\b{pat}\b", tok, text, flags=re.IGNORECASE)` on a whole text. -/
def subWordCI (pat tok l : List Char) : List Char :=
  swScan pat tok l.length false l

theorem swScan_no_occ (pat tok : List Char) :
    ∀ (l : List Char) (fuel : Nat) (prevW : Bool),
      occursIn pat (l.map lowerChar) = false → swScan pat tok fuel prevW l = l := by
  intro l
  induction l with
  | nil => intro fuel prevW _; cases fuel <;> rfl
  | cons c cs ih =>
    intro fuel prevW h
    cases fuel with
    | zero => rfl
    | succ f =>
      have htail : occursIn pat (cs.map lowerChar) = false := by
        have h2 : occursIn pat (lowerChar c :: cs.map lowerChar) = false := by simpa using h
        exact not_occursIn_tail h2
      cases prevW with
      | true => simp only [swScan, if_true]; rw [ih f (isWordChar c) htail]
      | false =>
        simp only [swScan, Bool.false_eq_true, if_false]
        cases hm : matchCI pat (c :: cs) with
        | some r =>
          exfalso
          obtain ⟨hpre, _, _⟩ := matchCI_some hm
          have : occursIn pat ((c :: cs).map lowerChar) = true := occursIn_of_listPre hpre
          rw [this] at h
          exact Bool.true_eq_false.mp h
        | none => rw [ih f (isWordChar c) htail]

theorem swScan_word_seg (pat tok : List Char) :
    ∀ (seg : List Char) (rest : List Char) (fuel : Nat),
      (∀ c ∈ seg, isWordChar c = true) → seg.length ≤ fuel →
      swScan pat tok fuel true (seg ++ rest) =
        seg ++ swScan pat tok (fuel - seg.length) true rest := by
  intro seg
  induction seg with
  | nil => intro rest fuel _ _; simp
  | cons c cs ih =>
    intro rest fuel hw hf
    cases fuel with
    | zero => exact absurd hf (by simp)
    | succ f =>
      simp only [List.cons_append, swScan, if_true, List.append_eq]
      have hc : isWordChar c = true := hw c (by simp)
      rw [hc]
      have hcs : ∀ d ∈ cs, isWordChar d = true := fun d hd => hw d (by simp [hd])
      have hflen : cs.length ≤ f := by
        simpa [Nat.succ_le_succ_iff] using hf
      rw [ih rest f hcs hflen]
      simp [Nat.succ_sub_succ]

/-- Successful whole-word replacement at the current position: the position
has a left boundary, the coming characters case-fold to the pattern, and a
right boundary follows. -/
theorem swScan_replace (pat tok : List Char) {w rest : List Char} (f : Nat)
    (hw : w.map lowerChar = pat) (hb : boundHead rest = true) (hne : w ≠ []) :
    swScan pat tok (f + 1) false (w ++ rest) = tok ++ swScan pat tok f true rest := by
  have hm : matchCI pat (w ++ rest) = some rest := by
    rw [← hw]; exact matchCI_of_map
  cases w with
  | nil => exact absurd rfl hne
  | cons c cs =>
    have hm2 : matchCI pat (c :: (cs ++ rest)) = some rest := by simpa using hm
    simp only [List.cons_append, swScan, Bool.false_eq_true, if_false, List.append_eq,
      hm2, hb, if_true]

theorem listPre_drop_seg {p : List Char} :
    ∀ {a b : List Char}, listPre p (a ++ b) = true → a.length ≤ p.length →
      listPre (p.drop a.length) b = true := by
  intro a
  induction a generalizing p with
  | nil => intro b h _; simpa using h
  | cons x xs ih =>
    intro b h hl
    cases p with
    | nil => simp at hl
    | cons q qs =>
      simp only [List.cons_append, listPre, Bool.and_eq_true, decide_eq_true_eq] at h
      simp only [List.length_cons, Nat.succ_le_succ_iff] at hl
      simpa using ih h.2 hl

theorem swScan_nil (pat tok : List Char) : ∀ (fuel : Nat) (prevW : Bool),
    swScan pat tok fuel prevW [] = [] := by
  intro fuel prevW
  cases fuel <;> rfl

/-- At a left-boundary position, a maximal identifier (word characters
followed by a right boundary) that does not case-fold to the pattern is
scanned through unchanged: `\b pat \b` cannot match inside it. -/
theorem swScan_ident_head (pat tok : List Char)
    (hpat : ∀ c ∈ pat, isWordChar c = true) :
    ∀ (id rest : List Char) (fuel : Nat),
      (∀ c ∈ id, isWordChar c = true) → id ≠ [] →
      id.map lowerChar ≠ pat → boundHead rest = true → id.length ≤ fuel →
      swScan pat tok fuel false (id ++ rest) =
        id ++ swScan pat tok (fuel - id.length) true rest := by
  intro id rest fuel hid hne hnp hb hf
  cases id with
  | nil => exact absurd rfl hne
  | cons c cs =>
    cases fuel with
    | zero => exact absurd hf (by simp)
    | succ f =>
      have hc : isWordChar c = true := hid c (by simp)
      have hcs : ∀ d ∈ cs, isWordChar d = true := fun d hd => hid d (by simp [hd])
      have hflen : cs.length ≤ f := by simpa [Nat.succ_le_succ_iff] using hf
      have hskip :
          c :: swScan pat tok f (isWordChar c) (cs ++ rest) =
            (c :: cs) ++ swScan pat tok (f + 1 - (c :: cs).length) true rest := by
        rw [hc, swScan_word_seg pat tok cs rest f hcs hflen]
        simp [Nat.succ_sub_succ]
      simp only [List.cons_append, swScan, Bool.false_eq_true, if_false, List.append_eq]
      cases hm : matchCI pat (c :: (cs ++ rest)) with
      | none => simpa using hskip
      | some r =>
        have hm' : matchCI pat ((c :: cs) ++ rest) = some r := by simpa using hm
        obtain ⟨hpre, hr, hlen⟩ := matchCI_some hm'
        rcases Nat.lt_trichotomy pat.length (c :: cs).length with hlt | heq | hgt
        · -- the match ends strictly inside the identifier: right boundary fails
          have hble : pat.length ≤ (c :: cs).length := Nat.le_of_lt hlt
          have hdrop : ((c :: cs) ++ rest).drop pat.length =
              ((c :: cs).drop pat.length) ++ rest := List.drop_append_of_le_length hble
          have hne2 : (c :: cs).drop pat.length ≠ [] := by
            intro hnil
            have := List.length_drop pat.length (c :: cs)
            rw [hnil] at this
            simp only [List.length_nil] at this
            omega
          obtain ⟨d, ds, hd⟩ := List.exists_cons_of_ne_nil hne2
          have hdmem : d ∈ (c :: cs) := by
            have : d ∈ (c :: cs).drop pat.length := by rw [hd]; simp
            exact List.mem_of_mem_drop this
          have hbound : boundHead r = false := by
            rw [hr, hdrop, hd]
            simp [boundHead, hid d hdmem]
          simpa [hbound] using hskip
        · -- the identifier itself case-folds to the pattern: contradiction
          exfalso
          apply hnp
          have hmap : ((c :: cs) ++ rest).map lowerChar =
              ((c :: cs).map lowerChar) ++ (rest.map lowerChar) := by simp
          rw [hmap] at hpre
          obtain ⟨htake, _⟩ := listPre_take hpre
          have hlen2 : ((c :: cs).map lowerChar).length = pat.length := by
            simp only [List.length_map, List.length_cons] at heq ⊢
            omega
          calc (c :: cs).map lowerChar
              = (((c :: cs).map lowerChar) ++ (rest.map lowerChar)).take pat.length := by
                rw [← hlen2, List.take_left]
            _ = pat := htake
        · -- the pattern would have to continue past the identifier into the
          -- right-boundary character: impossible since pattern characters are
          -- word characters
          exfalso
          have hmap : ((c :: cs) ++ rest).map lowerChar =
              ((c :: cs).map lowerChar) ++ (rest.map lowerChar) := by simp
          rw [hmap] at hpre
          have hle : ((c :: cs).map lowerChar).length ≤ pat.length := by
            simpa using Nat.le_of_lt hgt
          have hrest : listPre (pat.drop ((c :: cs).map lowerChar).length)
              (rest.map lowerChar) = true := listPre_drop_seg hpre hle
          have hdne : pat.drop ((c :: cs).map lowerChar).length ≠ [] := by
            intro hnil
            have := List.length_drop ((c :: cs).map lowerChar).length pat
            rw [hnil] at this
            simp only [List.length_nil, List.length_map] at this
            omega
          obtain ⟨q, qs, hq⟩ := List.exists_cons_of_ne_nil hdne
          have hqmem : q ∈ pat := by
            have : q ∈ pat.drop ((c :: cs).map lowerChar).length := by rw [hq]; simp
            exact List.mem_of_mem_drop this
          have hqword : isWordChar q = true := hpat q hqmem
          cases rest with
          | nil =>
            rw [hq] at hrest
            simp [listPre] at hrest
          | cons d ds =>
            have hdw : isWordChar d = false := by
              simpa [boundHead] using hb
            rw [hq] at hrest
            simp only [List.map_cons, listPre, Bool.and_eq_true, decide_eq_true_eq] at hrest
            have : q = d := by
              have := hrest.1
              rwa [lowerChar_of_not_word hdw] at this
            rw [this, hdw] at hqword
            exact Bool.false_eq_true.mp hqword

theorem listPre_map_lower {p : List Char} (hp : ∀ c ∈ p, lowerChar c = c) :
    ∀ {l : List Char}, listPre p l = true → listPre p (l.map lowerChar) = true := by
  induction p with
  | nil => intro l _; rfl
  | cons a ps ih =>
    intro l h
    cases l with
    | nil => simp [listPre] at h
    | cons b ls =>
      simp only [listPre, Bool.and_eq_true, decide_eq_true_eq] at h
      simp only [List.map_cons, listPre, Bool.and_eq_true, decide_eq_true_eq]
      constructor
      · rw [← h.1]; exact (hp a (by simp)).symm
      · exact ih (fun c hc => hp c (by simp [hc])) h.2

theorem listPre_of_append_left {p1 : List Char} :
    ∀ {p2 l : List Char}, listPre (p1 ++ p2) l = true → listPre p1 l = true := by
  induction p1 with
  | nil => intro p2 l _; rfl
  | cons a ps ih =>
    intro p2 l h
    cases l with
    | nil => simp [listPre] at h
    | cons b ls =>
      simp only [List.cons_append, listPre, Bool.and_eq_true, decide_eq_true_eq] at h
      simp only [listPre, Bool.and_eq_true, decide_eq_true_eq]
      exact ⟨h.1, ih h.2⟩

/-! ### The sentinel tokens of the two parser classes (source lines 37, 89-92) -/

/-- `_DATE_SWAP_TOKEN = "__d_a_t_e"` (same constant in both classes). -/
def DATE_SWAP_TOKEN : String := "__d_a_t_e"

/-- `_TIMESTAMP_SWAP_TOKEN = "__t_i_m_e_s_t_a_m_p"`. -/
def TIMESTAMP_SWAP_TOKEN : String := "__t_i_m_e_s_t_a_m_p"

/-- `_MYVIEW_SQL_TABLE_NAME_TOKEN = "__my_view__.__sql_table_name__"`. -/
def MYVIEW_SQL_TABLE_NAME_TOKEN : String := "__my_view__.__sql_table_name__"

/-- `_MYVIEW_LOOKER_TOKEN = "my_view.SQL_TABLE_NAME"`. -/
def MYVIEW_LOOKER_TOKEN : String := "my_view.SQL_TABLE_NAME"

/-- The unsupported-construct marker both classes truncate at. -/
def LATERAL_MARKER : List Char := "lateral flatten".data

/-- `sql_query[: sql_query.find("lateral flatten")]` when the marker occurs,
`sql_query` unchanged otherwise (source lines 44-46 and 99-101). -/
def truncateLateral (l : List Char) : List Char :=
  match splitAt1 LATERAL_MARKER l with
  | some (a, _) => a
  | none => l

theorem truncateLateral_no_occ {l : List Char}
    (h : occursIn LATERAL_MARKER l = false) : truncateLateral l = l := by
  unfold truncateLateral
  rw [(splitAt1_none_iff l).mpr h]

/-! ### `re.sub(r"\sdate\s", " __d_a_t_e ", ...)` — metadata class, line 49 -/

def DATE_PAT : List Char := "date".data

def TIMESTAMP_PAT : List Char := "timestamp".data

/-- Does the rest of the input start with a whitespace character
(the trailing `\s` of the pattern)? -/
def headWS : List Char → Bool
  | [] => false
  | c :: _ => c.isWhitespace

/-- Scanner for `re.sub(r"\sdate\s", " __d_a_t_e ", sql_query)` (no
IGNORECASE): whitespace, the literal lower-case `date`, whitespace; the
match, both whitespace characters included, is replaced by a
space-token-space text and scanning resumes after the matched text. -/
def msqlDateScan : Nat → List Char → List Char
  | 0, l => l
  | _ + 1, [] => []
  | fuel + 1, c :: cs =>
    if c.isWhitespace = true ∧ listPre DATE_PAT cs = true ∧ headWS (cs.drop 4) = true then
      (" " ++ DATE_SWAP_TOKEN ++ " ").data ++ msqlDateScan fuel (cs.drop 5)
    else c :: msqlDateScan fuel cs

def msqlDatePass (l : List Char) : List Char := msqlDateScan l.length l

theorem msqlDateScan_no_occ :
    ∀ (l : List Char) (fuel : Nat),
      occursIn DATE_PAT l = false → msqlDateScan fuel l = l := by
  intro l
  induction l with
  | nil => intro fuel _; cases fuel <;> rfl
  | cons c cs ih =>
    intro fuel h
    cases fuel with
    | zero => rfl
    | succ f =>
      have htail : occursIn DATE_PAT cs = false := not_occursIn_tail h
      have hpre : listPre DATE_PAT cs = false := not_listPre_of_not_occursIn htail
      simp only [msqlDateScan, hpre, Bool.false_eq_true, false_and, and_false, if_false]
      rw [ih f htail]

theorem msqlDateScan_seg :
    ∀ (seg rest : List Char) (fuel : Nat),
      (∀ c ∈ seg, c.isWhitespace = false) → seg.length ≤ fuel →
      msqlDateScan fuel (seg ++ rest) =
        seg ++ msqlDateScan (fuel - seg.length) rest := by
  intro seg
  induction seg with
  | nil => intro rest fuel _ _; simp
  | cons c cs ih =>
    intro rest fuel hw hf
    cases fuel with
    | zero => exact absurd hf (by simp)
    | succ f =>
      have hc : c.isWhitespace = false := hw c (by simp)
      simp only [List.cons_append, msqlDateScan, hc, Bool.false_eq_true, false_and, if_false,
        List.append_eq]
      rw [ih rest f (fun d hd => hw d (by simp [hd])) (by simpa [Nat.succ_le_succ_iff] using hf)]
      simp [Nat.succ_sub_succ]

/-! ### `re.sub(r"\sencode [a-zA-Z]*", "", ...)` — lines 52 (exact case) and
124 (IGNORECASE) -/

def ENCODE_PAT : List Char := "encode".data

/-- Attempt the part of the pattern after the leading `\s`: the word
`encode` (case-insensitively when `ci`), one literal space, then a maximal
run of ASCII letters; returns the input after the matched text. -/
def matchEnc (ci : Bool) (l : List Char) : Option (List Char) :=
  match (if ci then matchCI ENCODE_PAT l
         else if listPre ENCODE_PAT l then some (l.drop 6) else none) with
  | some (d :: r) => if d = ' ' then some (r.dropWhile Char.isAlpha) else none
  | _ => none

def encScan (ci : Bool) : Nat → List Char → List Char
  | 0, l => l
  | _ + 1, [] => []
  | fuel + 1, c :: cs =>
    if c.isWhitespace then
      match matchEnc ci cs with
      | some r => encScan ci fuel r
      | none => c :: encScan ci fuel cs
    else c :: encScan ci fuel cs

def encPass (ci : Bool) (l : List Char) : List Char := encScan ci l.length l

theorem matchEnc_listPre {ci : Bool} {l r : List Char} (h : matchEnc ci l = some r) :
    listPre ENCODE_PAT (l.map lowerChar) = true := by
  unfold matchEnc at h
  cases ci with
  | true =>
    simp only [if_true] at h
    cases hm : matchCI ENCODE_PAT l with
    | none => rw [hm] at h; simp at h
    | some r0 => exact (matchCI_some hm).1
  | false =>
    simp only [Bool.false_eq_true, if_false] at h
    cases hp : listPre ENCODE_PAT l with
    | false => rw [hp] at h; simp at h
    | true =>
      apply listPre_map_lower _ hp
      intro c hc
      fin_cases hc <;> rfl

theorem encScan_no_occ (ci : Bool) :
    ∀ (l : List Char) (fuel : Nat),
      occursIn ENCODE_PAT (l.map lowerChar) = false → encScan ci fuel l = l := by
  intro l
  induction l with
  | nil => intro fuel _; cases fuel <;> rfl
  | cons c cs ih =>
    intro fuel h
    cases fuel with
    | zero => rfl
    | succ f =>
      have htail : occursIn ENCODE_PAT (cs.map lowerChar) = false := by
        have h2 : occursIn ENCODE_PAT (lowerChar c :: cs.map lowerChar) = false := by
          simpa using h
        exact not_occursIn_tail h2
      cases hws : c.isWhitespace with
      | false =>
        simp only [encScan, hws, Bool.false_eq_true, if_false]
        rw [ih f htail]
      | true =>
        simp only [encScan, hws, if_true]
        cases hm : matchEnc ci cs with
        | some r =>
          exfalso
          have := occursIn_of_listPre (matchEnc_listPre hm)
          rw [this] at htail
          exact Bool.true_eq_false.mp htail
        | none => rw [ih f htail]

/-! ### `re.sub(rf"(\${{{_MYVIEW_LOOKER_TOKEN}}})", _MYVIEW_SQL_TABLE_NAME_TOKEN, ...)`
— lines 109-113.  The unescaped `.` of `my_view.SQL_TABLE_NAME` matches any
character other than a newline. -/

def DOLLAR_BRACE : List Char := "$\x7b".data

def LOOKER_P1 : List Char := DOLLAR_BRACE ++ "my_view".data

def LOOKER_P2 : List Char := "SQL_TABLE_NAME\x7d".data

def matchLooker (l : List Char) : Option (List Char) :=
  if listPre LOOKER_P1 l = true then
    match l.drop 9 with
    | c :: r2 =>
      if ¬ c = '\n' ∧ listPre LOOKER_P2 r2 = true then some (r2.drop 15) else none
    | [] => none
  else none

def lookScan : Nat → List Char → List Char
  | 0, l => l
  | _ + 1, [] => []
  | fuel + 1, c :: cs =>
    match matchLooker (c :: cs) with
    | some r => MYVIEW_SQL_TABLE_NAME_TOKEN.data ++ lookScan fuel r
    | none => c :: lookScan fuel cs

def lookPass (l : List Char) : List Char := lookScan l.length l

theorem lookScan_no_occ :
    ∀ (l : List Char) (fuel : Nat),
      occursIn DOLLAR_BRACE l = false → lookScan fuel l = l := by
  intro l
  induction l with
  | nil => intro fuel _; cases fuel <;> rfl
  | cons c cs ih =>
    intro fuel h
    cases fuel with
    | zero => rfl
    | succ f =>
      have hnp : listPre LOOKER_P1 (c :: cs) = false := by
        cases hp : listPre LOOKER_P1 (c :: cs) with
        | false => rfl
        | true =>
          exfalso
          have : listPre DOLLAR_BRACE (c :: cs) = true := listPre_of_append_left hp
          rw [not_listPre_of_not_occursIn h] at this
          exact Bool.false_eq_true.mp this
      have hm : matchLooker (c :: cs) = none := by
        unfold matchLooker
        rw [hnp]
        simp
      simp only [lookScan, hm]
      rw [ih f (not_occursIn_tail h)]

/-! ### `re.sub(r"(\${)(.+)(})", r"\2", ...)` — line 127.  `.+` is greedy and
does not cross a newline, so a match starting at a given `${` extends to the
last `}` on that line (at least one character after the `${`). -/

def lastCloseIdx : List Char → Option Nat
  | [] => none
  | c :: cs =>
    match lastCloseIdx cs with
    | some k => some (k + 1)
    | none => if c = '\x7d' then some 0 else none

def templStep : List Char → Option (List Char × List Char)
  | c1 :: c2 :: rest =>
    if c1 = '$' ∧ c2 = '\x7b' then
      match lastCloseIdx (rest.takeWhile (fun c => !(c = '\n'))) with
      | some j =>
        if 1 ≤ j then some ((rest.takeWhile (fun c => !(c = '\n'))).take j, rest.drop (j + 1))
        else none
      | none => none
    else none
  | _ => none

def templScan : Nat → List Char → List Char
  | 0, l => l
  | _ + 1, [] => []
  | fuel + 1, c :: cs =>
    match templStep (c :: cs) with
    | some (g, rest) => g ++ templScan fuel rest
    | none => c :: templScan fuel cs

def templPass (l : List Char) : List Char := templScan l.length l

theorem templStep_none {c : Char} {cs : List Char}
    (h : listPre DOLLAR_BRACE (c :: cs) = false) : templStep (c :: cs) = none := by
  cases cs with
  | nil => rfl
  | cons c2 rest =>
    have : ¬ (c = '$' ∧ c2 = '\x7b') := by
      intro hc
      obtain ⟨h1, h2⟩ := hc
      subst h1; subst h2
      simp [DOLLAR_BRACE, listPre] at h
    simp [templStep, this]

theorem templScan_no_occ :
    ∀ (l : List Char) (fuel : Nat),
      occursIn DOLLAR_BRACE l = false → templScan fuel l = l := by
  intro l
  induction l with
  | nil => intro fuel _; cases fuel <;> rfl
  | cons c cs ih =>
    intro fuel h
    cases fuel with
    | zero => rfl
    | succ f =>
      have hs : templStep (c :: cs) = none :=
        templStep_none (not_listPre_of_not_occursIn h)
      simp only [templScan, hs]
      rw [ih f (not_occursIn_tail h)]

theorem listPre_refl : ∀ (p : List Char), listPre p p = true := by
  intro p
  induction p with
  | nil => rfl
  | cons a ps ih => simp [listPre, ih]

theorem occursIn_map_lower {p : List Char} (hp : ∀ c ∈ p, lowerChar c = c) :
    ∀ {l : List Char}, occursIn p l = true → occursIn p (l.map lowerChar) = true := by
  intro l
  induction l with
  | nil => intro h; simpa [occursIn] using h
  | cons c cs ih =>
    intro h
    simp only [occursIn, Bool.or_eq_true] at h
    rcases h with h | h
    · exact occursIn_of_listPre (listPre_map_lower hp h)
    · have := ih h
      simp only [List.map_cons, occursIn, Bool.or_eq_true]
      exact Or.inr this

theorem not_occursIn_of_lower {p l : List Char} (hp : ∀ c ∈ p, lowerChar c = c)
    (h : occursIn p (l.map lowerChar) = false) : occursIn p l = false := by
  cases ho : occursIn p l with
  | false => rfl
  | true =>
    rw [occursIn_map_lower hp ho] at h
    exact h.symm ▸ rfl

theorem swScan_nonword_head (pat tok : List Char) {a : Char} {p : Char} {ps : List Char}
    (hpc : pat = p :: ps) (hp : isWordChar p = true) (ha : isWordChar a = false)
    (rest : List Char) (f : Nat) (prevW : Bool) :
    swScan pat tok (f + 1) prevW (a :: rest) = a :: swScan pat tok f false rest := by
  cases prevW with
  | true => simp [swScan, ha]
  | false =>
    subst hpc
    rw [show swScan (p :: ps) tok (f + 1) false (a :: rest) =
      match matchCI (p :: ps) (a :: rest) with
      | some r =>
        if boundHead r then tok ++ swScan (p :: ps) tok f true r
        else a :: swScan (p :: ps) tok f (isWordChar a) rest
      | none => a :: swScan (p :: ps) tok f (isWordChar a) rest from by simp [swScan]]
    rw [matchCI_none_head hp ha, ha]

theorem swScan_true_one (pat tok : List Char) (b : Char) :
    ∀ (fuel : Nat), swScan pat tok fuel true [b] = [b] := by
  intro fuel
  cases fuel with
  | zero => rfl
  | succ f => simp [swScan, swScan_nil]

/-- For a maximal identifier followed by a non-word character, the metadata
class's `\sdate\s` pattern continues past the leading whitespace exactly when
the identifier is the literal lower-case `date` and the following character
is whitespace. -/
theorem msql_date_cond {id : List Char} {b : Char}
    (hid : ∀ c ∈ id, isWordChar c = true) (hb : isWordChar b = false) :
    (listPre DATE_PAT (id ++ [b]) = true ∧ headWS ((id ++ [b]).drop 4) = true) ↔
      (id = DATE_PAT ∧ b.isWhitespace = true) := by
  constructor
  · rintro ⟨hp, hw⟩
    obtain ⟨htake, hlen⟩ := listPre_take hp
    have hlen4 : (4 : Nat) ≤ id.length + 1 := by simpa [DATE_PAT] using hlen
    rcases Nat.lt_trichotomy id.length 4 with hlt | heq4 | hgt
    · -- the identifier is too short: the pattern would cover `b`
      exfalso
      have hall : (id ++ [b]).length ≤ 4 := by simp; omega
      have : (id ++ [b]).take DATE_PAT.length = id ++ [b] := by
        apply List.take_of_length_le
        simpa [DATE_PAT] using hall
      rw [this] at htake
      have hbmem : b ∈ DATE_PAT := by rw [← htake]; simp
      have : isWordChar b = true := by
        have hforall : ∀ c ∈ DATE_PAT, isWordChar c = true := by decide
        exact hforall b hbmem
      rw [this] at hb
      exact Bool.true_eq_false.mp hb
    · -- the identifier has exactly the pattern's length
      have hid4 : id.take 4 = id := List.take_of_length_le (by omega)
      have htake2 : (id ++ [b]).take DATE_PAT.length = id := by
        rw [show DATE_PAT.length = 4 from rfl, List.take_append_of_le_length (by omega), hid4]
      rw [htake2] at htake
      have hdrop : (id ++ [b]).drop 4 = [b] := by
        have : (id ++ [b]).drop 4 = id.drop 4 ++ [b] :=
          List.drop_append_of_le_length (by omega)
        rw [this, List.drop_of_length_le (by omega)]
        simp
      rw [hdrop] at hw
      exact ⟨htake.symm ▸ rfl, hw⟩
    · -- the identifier is longer: the character after the match is still a
      -- word character, so the trailing whitespace test fails
      exfalso
      have hdrop : (id ++ [b]).drop 4 = id.drop 4 ++ [b] :=
        List.drop_append_of_le_length (by omega)
      have hne : id.drop 4 ≠ [] := by
        intro hnil
        have := List.length_drop 4 id
        rw [hnil] at this
        simp only [List.length_nil] at this
        omega
      obtain ⟨d, ds, hd⟩ := List.exists_cons_of_ne_nil hne
      have hdmem : d ∈ id := by
        have : d ∈ id.drop 4 := by rw [hd]; simp
        exact List.mem_of_mem_drop this
      rw [hdrop, hd] at hw
      simp only [List.cons_append, headWS] at hw
      rw [not_whitespace_of_word (hid d hdmem)] at hw
      exact Bool.false_eq_true.mp hw
  · rintro ⟨h1, h2⟩
    subst h1
    constructor
    · exact listPre_append_ext [b] (listPre_refl DATE_PAT)
    · have hd4 : (DATE_PAT ++ [b]).drop 4 = [b] := by
        rw [List.drop_append_of_le_length (by decide)]
        rw [show DATE_PAT.drop 4 = [] from rfl]
        rfl
      rw [hd4]
      simpa [headWS] using h2

/-! ### The normalisation pipelines of the two parser classes -/

namespace SqlLineageSQLParser

/-- `re.sub(r"(\bdate\b)", "__d_a_t_e", sql_query, flags=re.IGNORECASE)`
(source lines 104-106). -/
def datePass (l : List Char) : List Char := subWordCI DATE_PAT DATE_SWAP_TOKEN.data l

/-- `re.sub(r"(\btimestamp\b)", "__t_i_m_e_s_t_a_m_p", sql_query,
flags=re.IGNORECASE)` (source lines 116-121). -/
def timestampPass (l : List Char) : List Char :=
  subWordCI TIMESTAMP_PAT TIMESTAMP_SWAP_TOKEN.data l

/-- The rewrite pipeline of `SqlLineageSQLParser.__init__` (source lines
99-127), in source order: truncation at `lateral flatten`, `date` sentinel,
Looker-token swap, `timestamp` sentinel, `encode` stripping (IGNORECASE),
template unwrapping.  The result is the text stored in `self._sql` and
handed to the statement splitter. -/
def normalize (l : List Char) : List Char :=
  templPass (encPass true (timestampPass (lookPass (datePass (truncateLateral l)))))

end SqlLineageSQLParser

namespace MetadataSQLSQLParser

/-- The rewrite pipeline of `MetadataSQLSQLParser.__init__` (source lines
44-52), in source order: truncation at `lateral flatten`, the case-sensitive
whitespace-delimited `date` swap, `encode` stripping (no IGNORECASE). -/
def normalize (l : List Char) : List Char :=
  encPass false (msqlDatePass (truncateLateral l))

end MetadataSQLSQLParser

/-! ### Python string ordering (`list.sort()` on `str` compares code points
lexicographically) -/

def leChars : List Char → List Char → Bool
  | [], _ => true
  | _ :: _, [] => false
  | a :: as, b :: bs => if a = b then leChars as bs else decide (a.toNat < b.toNat)

/-- The ascending order `list.sort()` uses on Python strings. -/
def pyLe (s t : String) : Prop := leChars s.data t.data = true

instance pyLe.decRel : DecidableRel pyLe := fun s t =>
  inferInstanceAs (Decidable (leChars s.data t.data = true))

theorem leChars_total : ∀ (x y : List Char), leChars x y = true ∨ leChars y x = true := by
  intro x
  induction x with
  | nil => intro y; exact Or.inl rfl
  | cons a as ih =>
    intro y
    cases y with
    | nil => exact Or.inr rfl
    | cons b bs =>
      by_cases hab : a = b
      · subst hab
        rcases ih bs with h | h
        · exact Or.inl (by simp [leChars, h])
        · exact Or.inr (by simp [leChars, h])
      · have hba : ¬ b = a := fun he => hab he.symm
        have hne : a.toNat ≠ b.toNat := by
          intro he
          exact hab (Char.eq_of_val_eq (UInt32.toNat.inj he))
        rcases Nat.lt_or_ge a.toNat b.toNat with h | h
        · exact Or.inl (by simp [leChars, hab, h])
        · have : b.toNat < a.toNat := Nat.lt_of_le_of_ne h (fun he => hne he.symm)
          exact Or.inr (by simp [leChars, hba, this])

theorem leChars_trans : ∀ (x y z : List Char),
    leChars x y = true → leChars y z = true → leChars x z = true := by
  intro x
  induction x with
  | nil => intro y z _ _; rfl
  | cons a as ih =>
    intro y z hxy hyz
    cases y with
    | nil => simp [leChars] at hxy
    | cons b bs =>
      cases z with
      | nil => simp [leChars] at hyz
      | cons c cs =>
        by_cases hab : a = b <;> by_cases hbc : b = c
        · subst hab; subst hbc
          simp only [leChars, if_true, if_pos rfl] at hxy hyz ⊢
          exact ih bs cs hxy hyz
        · subst hab
          simp only [leChars, if_pos rfl, hbc, if_false, decide_eq_true_eq] at hyz ⊢
          exact hyz
        · subst hbc
          simp only [leChars, hab, if_false, if_pos rfl, decide_eq_true_eq] at hxy ⊢
          exact hxy
        · simp only [leChars, hab, hbc, if_false, decide_eq_true_eq] at hxy hyz
          have hac : a.toNat < c.toNat := Nat.lt_trans hxy hyz
          have hane : ¬ a = c := by
            intro he
            subst he
            exact Nat.lt_irrefl _ hac
          simp [leChars, hane, hac]

instance pyLe.isTotal : IsTotal String pyLe :=
  ⟨fun s t => leChars_total s.data t.data⟩

instance pyLe.isTrans : IsTrans String pyLe :=
  ⟨fun s t u hst htu => leChars_trans s.data t.data u.data hst htu⟩

/-! ### The facade over the third-party analysis results -/

/-- Abstract result of the third-party `sqllineage` analysis of one query, as
consumed by `SqlLineageSQLParser.get_tables` / `get_columns`:
`sourceTables` are the strings `str(table)` for `self._sql_holder.source_tables`;
`columnRawNames` are the raw names of the column nodes with out-degree zero
in the column subgraph of `self._sql_holder.graph`; `hasJoin` records whether
the analysed query contained a JOIN (a property of the query that the
post-processing in the source never consults). -/
structure SLHolder where
  sourceTables : List String
  columnRawNames : List String
  hasJoin : Bool

/-- `re.sub(r"^<default>.", "", str(table))` (source line 163): the anchored
pattern removes a leading `<default>` plus one following character (any
character other than a newline). -/
def stripDefaultSchema (l : List Char) : List Char :=
  if listPre ("<default>").data l = true then
    match l.drop 9 with
    | c :: rest => if c = '\n' then l else rest
    | [] => l
  else l

namespace SqlLineageSQLParser

/-- The table-name list before sorting (source lines 161-174): prefix
stripping, then the three exact-equality sentinel reversals in source
order. -/
def tableNames (h : SLHolder) : List String :=
  let r0 := h.sourceTables.map (fun t => String.mk (stripDefaultSchema t.data))
  let r1 := r0.map (fun c => if c = DATE_SWAP_TOKEN then "date" else c)
  let r2 := r1.map (fun c => if c = TIMESTAMP_SWAP_TOKEN then "timestamp" else c)
  r2.map (fun c => if c = MYVIEW_SQL_TABLE_NAME_TOKEN then MYVIEW_LOOKER_TOKEN else c)

/-- `get_tables` (source lines 160-179): post-process the holder's source
tables and sort ascending (`result.sort()`). -/
def get_tables (h : SLHolder) : List String :=
  List.insertionSort pyLe (tableNames h)

/-- `any(ele in column.raw_name for ele in ["*", "(", ")"])` (line 191). -/
def hasMarkerChar (s : String) : Bool :=
  s.data.any (fun c => c = '*' || c = '(' || c = ')')

/-- `get_columns` (source lines 181-203): keep the terminal columns whose raw
name has no wildcard/call marker (building a set), then reverse the date and
timestamp sentinels by exact equality (each step through a set).  The Python
`set` is modelled by `dedup`; the iteration order of the final `list(result)`
is not fixed by the source. -/
def get_columns (h : SLHolder) : List String :=
  let filtered := h.columnRawNames.filter (fun c => !(hasMarkerChar c))
  let s1 := filtered.dedup
  let s2 := (s1.map (fun c => if c = DATE_SWAP_TOKEN then "date" else c)).dedup
  (s2.map (fun c => if c = TIMESTAMP_SWAP_TOKEN then "timestamp" else c)).dedup

end SqlLineageSQLParser

/-- One entry of `columns_dict["select"]` as produced by the third-party
`sql_metadata` tokenizer: either a plain string or a nested list (the
`isinstance(c, list)` case of source line 75). -/
inductive SelItem
  | str (s : String)
  | sub (xs : List String)

/-- Abstract result of the third-party `sql_metadata.Parser` for one query,
as consumed by `MetadataSQLSQLParser.get_tables` / `get_columns`:
`tables` is `self._parser.tables`; `selectCols` is
`columns_dict.get("select", {})`; `joinCols` is `columns_dict["join"]` when
the key is present (`columns_dict.get("join", {}) != {}` is true whenever
the key is present, a list value — even an empty one — never being equal to
`{}`); `aliasesSelect` is `columns_aliases_dict.get("select", [])` when
`columns_aliases_dict` is not `None`; `columnsAliases` is the mapping
`self._parser.columns_aliases`. -/
structure MState where
  tables : List String
  selectCols : List SelItem
  joinCols : Option (List SelItem)
  aliasesSelect : Option (List String)
  columnsAliases : List (String × String)

namespace MetadataSQLSQLParser

/-- `get_tables` (source lines 59-63): the third-party table list, sorted. -/
def get_tables (st : MState) : List String :=
  List.insertionSort pyLe st.tables

def itemStr : SelItem → Option String
  | .str s => some s
  | .sub _ => none

/-- `get_columns` (source lines 65-85): empty on any join, else the string
select items other than `"NULL"`, with each resolvable alias substituted for
its expression, and the date sentinel swapped back at the end. -/
def get_columns (st : MState) : List String :=
  if st.joinCols.isSome then []
  else
    let filtered := (st.selectCols.filterMap itemStr).filter (fun c => !(c = "NULL"))
    let withAliases := (st.aliasesSelect.getD []).foldl
      (fun cols a =>
        match st.columnsAliases.lookup a with
        | some n => cols.map (fun c => if c = n then a else c)
        | none => cols)
      filtered
    withAliases.map (fun c => if c = DATE_SWAP_TOKEN then "date" else c)

end MetadataSQLSQLParser

namespace DefaultSQLParser

/-- `DefaultSQLParser.__init__` stores `SqlLineageSQLParser(sql_query)` in
`self.parser` (source lines 209-211), so the text it normalises is exactly
the full-graph engine's normalisation of the unchanged query string. -/
def normalize (l : List Char) : List Char := SqlLineageSQLParser.normalize l

/-- `DefaultSQLParser.get_tables` (source lines 213-214). -/
def get_tables (h : SLHolder) : List String := SqlLineageSQLParser.get_tables h

/-- `DefaultSQLParser.get_columns` (source lines 216-217). -/
def get_columns (h : SLHolder) : List String := SqlLineageSQLParser.get_columns h

end DefaultSQLParser

/-! ### Helper lemmas about the exact-equality sentinel swaps and the alias
substitution loop -/

theorem mem_map_swap_self {α : Type} [DecidableEq α] {t : α} (r : α) {l : List α}
    (h : t ∈ l) : r ∈ l.map (fun c => if c = t then r else c) :=
  List.mem_map.mpr ⟨t, h, by simp⟩

theorem mem_map_swap_other {α : Type} [DecidableEq α] {x t : α} (r : α) {l : List α}
    (h : x ∈ l) (hx : x ≠ t) : x ∈ l.map (fun c => if c = t then r else c) :=
  List.mem_map.mpr ⟨x, h, by simp [hx]⟩

theorem notMem_map_swap {α : Type} [DecidableEq α] {t r : α} (h : t ≠ r)
    (l : List α) : t ∉ l.map (fun c => if c = t then r else c) := by
  intro hm
  obtain ⟨y, _, hy⟩ := List.mem_map.mp hm
  by_cases hyt : y = t
  · rw [if_pos hyt] at hy
    exact h hy.symm
  · rw [if_neg hyt] at hy
    exact hyt hy

theorem notMem_map_swap_of_notMem {α : Type} [DecidableEq α] {x t r : α}
    (hxr : x ≠ r) {l : List α} (hxl : x ∉ l) :
    x ∉ l.map (fun c => if c = t then r else c) := by
  intro hm
  obtain ⟨y, hyl, hy⟩ := List.mem_map.mp hm
  by_cases hyt : y = t
  · rw [if_pos hyt] at hy
    exact hxr hy.symm
  · rw [if_neg hyt] at hy
    rw [← hy] at hxl
    exact hxl hyl

theorem mem_map_swap_cases {α : Type} [DecidableEq α] {x t r : α} {l : List α}
    (h : x ∈ l.map (fun c => if c = t then r else c)) : x = r ∨ x ∈ l := by
  obtain ⟨y, hyl, hy⟩ := List.mem_map.mp h
  by_cases hyt : y = t
  · rw [if_pos hyt] at hy
    exact Or.inl hy.symm
  · rw [if_neg hyt] at hy
    exact Or.inr (hy ▸ hyl)

theorem msqlDateScan_nil : ∀ (fuel : Nat), msqlDateScan fuel [] = [] := by
  intro fuel
  cases fuel <;> rfl

theorem foldl_alias_mem (m : List (String × String)) :
    ∀ (aliases : List String) (cols : List String) (x : String),
      x ∈ aliases.foldl
        (fun cols a =>
          match m.lookup a with
          | some n => cols.map (fun c => if c = n then a else c)
          | none => cols)
        cols →
      x ∈ cols ∨ x ∈ aliases := by
  intro aliases
  induction aliases with
  | nil => intro cols x h; exact Or.inl (by simpa using h)
  | cons a as ih =>
    intro cols x h
    simp only [List.foldl_cons] at h
    rcases ih _ x h with hstep | hmem
    · cases hl : m.lookup a with
      | some n =>
        rw [hl] at hstep
        obtain ⟨y, hyl, hy⟩ := List.mem_map.mp hstep
        by_cases hyn : y = n
        · rw [if_pos hyn] at hy
          exact Or.inr (by simp [← hy])
        · rw [if_neg hyn] at hy
          exact Or.inl (hy ▸ hyl)
      | none =>
        rw [hl] at hstep
        exact Or.inl hstep
    · exact Or.inr (by simp [hmem])

/-- Characterisation of the whole-word case-insensitive substitution on an
input consisting of one maximal identifier between two non-word characters. -/
theorem subWordCI_ident (pat tok : List Char)
    (hpat : ∀ c ∈ pat, isWordChar c = true) (hpne : pat ≠ []) :
    ∀ (a b : Char) (id : List Char),
      isWordChar a = false → isWordChar b = false → id ≠ [] →
      (∀ c ∈ id, isWordChar c = true) →
      subWordCI pat tok (a :: id ++ [b]) =
        a :: (if id.map lowerChar = pat then tok else id) ++ [b] := by
  intro a b id ha hb hne hid
  obtain ⟨p, ps, hpc⟩ := List.exists_cons_of_ne_nil hpne
  have hp : isWordChar p = true := hpat p (by rw [hpc]; simp)
  have hlen : (a :: (id ++ [b])).length = (id.length + 1) + 1 := by simp
  have hbd : boundHead [b] = true := by simp [boundHead, hb]
  unfold subWordCI
  rw [show (a :: id ++ [b]) = a :: (id ++ [b]) from rfl, hlen]
  rw [swScan_nonword_head pat tok hpc hp ha (id ++ [b]) (id.length + 1) false]
  by_cases hci : id.map lowerChar = pat
  · rw [if_pos hci]
    have hrep := swScan_replace pat tok (f := id.length) hci hbd hne
    rw [hrep, swScan_true_one]
    simp
  · rw [if_neg hci]
    rw [swScan_ident_head pat tok hpat id [b] (id.length + 1) hid hne hci hbd
      (Nat.le_succ _)]
    rw [show id.length + 1 - id.length = 1 from by omega, swScan_true_one]
    simp

/-- Characterisation of the metadata class's `\sdate\s` substitution on the
same single-identifier inputs. -/
theorem msqlDatePass_ident :
    ∀ (a b : Char) (id : List Char),
      isWordChar b = false → id ≠ [] → (∀ c ∈ id, isWordChar c = true) →
      msqlDatePass (a :: id ++ [b]) =
        if a.isWhitespace = true ∧ id = DATE_PAT ∧ b.isWhitespace = true
        then (" " ++ DATE_SWAP_TOKEN ++ " ").data
        else a :: id ++ [b] := by
  intro a b id hb hne hid
  have hcond := msql_date_cond hid hb
  have hlen : (a :: (id ++ [b])).length = (id.length + 1) + 1 := by simp
  unfold msqlDatePass
  rw [show (a :: id ++ [b]) = a :: (id ++ [b]) from rfl, hlen]
  by_cases hmain : a.isWhitespace = true ∧ id = DATE_PAT ∧ b.isWhitespace = true
  · rw [if_pos hmain]
    obtain ⟨haw, hidd, hbw⟩ := hmain
    have hc2 : listPre DATE_PAT (id ++ [b]) = true ∧ headWS ((id ++ [b]).drop 4) = true :=
      hcond.mpr ⟨hidd, hbw⟩
    rw [show msqlDateScan ((id.length + 1) + 1) (a :: (id ++ [b])) =
      (if a.isWhitespace = true ∧ listPre DATE_PAT (id ++ [b]) = true ∧
          headWS ((id ++ [b]).drop 4) = true
       then (" " ++ DATE_SWAP_TOKEN ++ " ").data ++
         msqlDateScan (id.length + 1) ((id ++ [b]).drop 5)
       else a :: msqlDateScan (id.length + 1) (id ++ [b])) from rfl]
    rw [if_pos ⟨haw, hc2.1, hc2.2⟩]
    subst hidd
    rw [show (DATE_PAT ++ [b]).drop 5 = [] from by
      rw [show DATE_PAT = ['d', 'a', 't', 'e'] from rfl]; rfl]
    rw [msqlDateScan_nil]
    simp
  · rw [if_neg hmain]
    have hc2 : ¬ (a.isWhitespace = true ∧ listPre DATE_PAT (id ++ [b]) = true ∧
        headWS ((id ++ [b]).drop 4) = true) := by
      intro hcc
      exact hmain ⟨hcc.1, (hcond.mp ⟨hcc.2.1, hcc.2.2⟩).1, (hcond.mp ⟨hcc.2.1, hcc.2.2⟩).2⟩
    rw [show msqlDateScan ((id.length + 1) + 1) (a :: (id ++ [b])) =
      (if a.isWhitespace = true ∧ listPre DATE_PAT (id ++ [b]) = true ∧
          headWS ((id ++ [b]).drop 4) = true
       then (" " ++ DATE_SWAP_TOKEN ++ " ").data ++
         msqlDateScan (id.length + 1) ((id ++ [b]).drop 5)
       else a :: msqlDateScan (id.length + 1) (id ++ [b])) from rfl]
    rw [if_neg hc2]
    have hseg := msqlDateScan_seg id [b] (id.length + 1)
      (fun c hc => not_whitespace_of_word (hid c hc)) (Nat.le_succ _)
    rw [hseg, show id.length + 1 - id.length = 1 from by omega]
    rw [show msqlDateScan 1 [b] = [b] from by
      have hlp : listPre DATE_PAT ([] : List Char) = false := rfl
      simp [msqlDateScan, hlp]]

theorem filter_marker_nil {l : List String}
    (h : ∀ c ∈ l, SqlLineageSQLParser.hasMarkerChar c = true) :
    l.filter (fun c => !(SqlLineageSQLParser.hasMarkerChar c)) = [] := by
  induction l with
  | nil => rfl
  | cons c cs ih =>
    have hc : SqlLineageSQLParser.hasMarkerChar c = true := h c (by simp)
    simp only [List.filter_cons, hc, Bool.not_true, Bool.false_eq_true, if_false]
    exact ih (fun d hd => h d (by simp [hd]))

/-! ## The claims -/

/-- Claim C1, amended.  The light-weight engine applies the join pessimism:
whenever the tokenizer reports a `join` key (of any value — a present list
value is never equal to the `{}` default), `MetadataSQLSQLParser.get_columns`
returns the empty list.  The full-graph engine — and hence the default
engine — applies no join check at all in `get_columns`; its column result on
a join query is empty exactly when every terminal column carries a
wildcard/call marker (as for `SELECT * FROM t1 JOIN t2 ON ...`). -/
theorem claim_C1_amended :
    (∀ st : MState, st.joinCols.isSome = true →
       MetadataSQLSQLParser.get_columns st = []) ∧
    (∀ h : SLHolder,
       (∀ c ∈ h.columnRawNames, SqlLineageSQLParser.hasMarkerChar c = true) →
       SqlLineageSQLParser.get_columns h = [] ∧
       DefaultSQLParser.get_columns h = []) := by
  constructor
  · intro st hj
    simp [MetadataSQLSQLParser.get_columns, hj]
  · intro h hall
    have hf : h.columnRawNames.filter (fun c => !(SqlLineageSQLParser.hasMarkerChar c)) = [] :=
      filter_marker_nil hall
    constructor
    · show (((h.columnRawNames.filter
        (fun c => !(SqlLineageSQLParser.hasMarkerChar c))).dedup.map
          (fun c => if c = DATE_SWAP_TOKEN then "date" else c)).dedup.map
            (fun c => if c = TIMESTAMP_SWAP_TOKEN then "timestamp" else c)).dedup = []
      rw [hf]
      rfl
    · show (((h.columnRawNames.filter
        (fun c => !(SqlLineageSQLParser.hasMarkerChar c))).dedup.map
          (fun c => if c = DATE_SWAP_TOKEN then "date" else c)).dedup.map
            (fun c => if c = TIMESTAMP_SWAP_TOKEN then "timestamp" else c)).dedup = []
      rw [hf]
      rfl

/-- Counterexample to claim C1 as stated: on the holder of the join query
`SELECT t1.a FROM t1 JOIN t2 ON t1.id = t2.id` (a join is present, and the
terminal column `a` has a plain raw name), the full-graph engine — which is
also what the default engine delegates to — returns the non-empty column
list `["a"]`: its `get_columns` contains no join check, so the pessimistic
policy does not hold for every engine. -/
theorem claim_C1_counterexample :
    SqlLineageSQLParser.get_columns ⟨["<default>.t1", "<default>.t2"], ["a"], true⟩ = ["a"] ∧
    DefaultSQLParser.get_columns ⟨["<default>.t1", "<default>.t2"], ["a"], true⟩ ≠ [] ∧
    SqlLineageSQLParser.get_tables ⟨["<default>.t1", "<default>.t2"], ["a"], true⟩ =
      ["t1", "t2"] := by
  decide

/-- Witness for the amended claim C1 at concrete inputs. -/
theorem claim_C1_witness :
    MetadataSQLSQLParser.get_columns
      ⟨["t1"], [SelItem.str "a"], some [SelItem.str "j"], none, []⟩ = [] ∧
    SqlLineageSQLParser.get_columns ⟨["<default>.t1"], ["count(*)"], true⟩ = [] := by
  constructor
  · exact claim_C1_amended.1 ⟨["t1"], [SelItem.str "a"], some [SelItem.str "j"], none, []⟩ rfl
  · exact (claim_C1_amended.2 ⟨["<default>.t1"], ["count(*)"], true⟩ (by decide)).1

/-- Claim C2, amended.  Sentinel reversal is by exact equality of the whole
name: `get_tables` reverses all three sentinels (date, timestamp, Looker)
and its output never contains any of them; `get_columns` reverses only the
date and timestamp sentinels — the Looker sentinel, and any name that merely
contains a sentinel as a proper substring, pass through unreversed.  A name
exactly equal to a sentinel comes back in its original surface form, so an
identifier literally named `date` appears as `date`. -/
theorem claim_C2_amended :
    (∀ h : SLHolder,
       DATE_SWAP_TOKEN ∉ SqlLineageSQLParser.get_tables h ∧
       TIMESTAMP_SWAP_TOKEN ∉ SqlLineageSQLParser.get_tables h ∧
       MYVIEW_SQL_TABLE_NAME_TOKEN ∉ SqlLineageSQLParser.get_tables h ∧
       DATE_SWAP_TOKEN ∉ SqlLineageSQLParser.get_columns h ∧
       TIMESTAMP_SWAP_TOKEN ∉ SqlLineageSQLParser.get_columns h) ∧
    (∀ st : MState, DATE_SWAP_TOKEN ∉ MetadataSQLSQLParser.get_columns st) ∧
    (∀ (h : SLHolder) (t : String), t ∈ h.sourceTables →
       String.mk (stripDefaultSchema t.data) = DATE_SWAP_TOKEN →
       ("date" : String) ∈ SqlLineageSQLParser.get_tables h) ∧
    (∀ h : SLHolder, DATE_SWAP_TOKEN ∈ h.columnRawNames →
       ("date" : String) ∈ SqlLineageSQLParser.get_columns h) := by
  refine ⟨?_, ?_, ?_, ?_⟩
  · intro h
    have htab : ∀ x : String,
        x ∈ SqlLineageSQLParser.get_tables h ↔ x ∈ SqlLineageSQLParser.tableNames h := by
      intro x
      exact List.mem_insertionSort pyLe
    have hdate1 : DATE_SWAP_TOKEN ∉
        (h.sourceTables.map (fun t => String.mk (stripDefaultSchema t.data))).map
          (fun c => if c = DATE_SWAP_TOKEN then "date" else c) :=
      notMem_map_swap (by decide) _
    have hdate2 : DATE_SWAP_TOKEN ∉
        ((h.sourceTables.map (fun t => String.mk (stripDefaultSchema t.data))).map
          (fun c => if c = DATE_SWAP_TOKEN then "date" else c)).map
            (fun c => if c = TIMESTAMP_SWAP_TOKEN then "timestamp" else c) :=
      notMem_map_swap_of_notMem (by decide) hdate1
    refine ⟨?_, ?_, ?_, ?_, ?_⟩
    · intro hm
      exact notMem_map_swap_of_notMem (by decide) hdate2 ((htab _).mp hm)
    · intro hm
      have hts : TIMESTAMP_SWAP_TOKEN ∉
          ((h.sourceTables.map (fun t => String.mk (stripDefaultSchema t.data))).map
            (fun c => if c = DATE_SWAP_TOKEN then "date" else c)).map
              (fun c => if c = TIMESTAMP_SWAP_TOKEN then "timestamp" else c) :=
        notMem_map_swap (by decide) _
      exact notMem_map_swap_of_notMem (by decide) hts ((htab _).mp hm)
    · intro hm
      exact notMem_map_swap (by decide) _ ((htab _).mp hm)
    · intro hm
      have h1 : DATE_SWAP_TOKEN ∉
          (h.columnRawNames.filter
            (fun c => !(SqlLineageSQLParser.hasMarkerChar c))).dedup.map
              (fun c => if c = DATE_SWAP_TOKEN then "date" else c) :=
        notMem_map_swap (by decide) _
      have h2 := List.mem_dedup.mp hm
      rcases mem_map_swap_cases h2 with he | h3
      · exact absurd he (by decide)
      · exact h1 (List.mem_dedup.mp h3)
    · intro hm
      have h2 := List.mem_dedup.mp hm
      exact notMem_map_swap (by decide) _ h2
  · intro st hm
    cases hj : st.joinCols.isSome with
    | true => simp [MetadataSQLSQLParser.get_columns, hj] at hm
    | false =>
      simp only [MetadataSQLSQLParser.get_columns, hj, Bool.false_eq_true, if_false] at hm
      exact notMem_map_swap (by decide) _ hm
  · intro h t ht hstrip
    have h0 : DATE_SWAP_TOKEN ∈
        h.sourceTables.map (fun t => String.mk (stripDefaultSchema t.data)) :=
      List.mem_map.mpr ⟨t, ht, hstrip⟩
    have h1 := mem_map_swap_self (t := DATE_SWAP_TOKEN) ("date" : String) h0
    have h2 := mem_map_swap_other (t := TIMESTAMP_SWAP_TOKEN) ("timestamp" : String) h1
      (by decide)
    have h3 := mem_map_swap_other (t := MYVIEW_SQL_TABLE_NAME_TOKEN) MYVIEW_LOOKER_TOKEN h2
      (by decide)
    exact (List.mem_insertionSort pyLe).mpr h3
  · intro h hm
    have h0 : DATE_SWAP_TOKEN ∈
        h.columnRawNames.filter (fun c => !(SqlLineageSQLParser.hasMarkerChar c)) :=
      List.mem_filter.mpr ⟨hm, by decide⟩
    have h1 := mem_map_swap_self (t := DATE_SWAP_TOKEN) ("date" : String)
      (List.mem_dedup.mpr h0)
    have h2 := mem_map_swap_other (t := TIMESTAMP_SWAP_TOKEN) ("timestamp" : String)
      (List.mem_dedup.mpr h1) (by decide)
    exact List.mem_dedup.mpr h2

/-- Counterexample to claim C2 as stated: a terminal column whose name is
exactly the Looker sentinel is returned as the sentinel by `get_columns`
(source lines 194-203 reverse only the date and timestamp sentinels at the
column stage), so not every sentinel appearing in a result name is mapped
back at both stages. -/
theorem claim_C2_counterexample :
    SqlLineageSQLParser.get_columns ⟨[], [MYVIEW_SQL_TABLE_NAME_TOKEN], false⟩ =
      [MYVIEW_SQL_TABLE_NAME_TOKEN] ∧
    MYVIEW_SQL_TABLE_NAME_TOKEN ≠ MYVIEW_LOOKER_TOKEN := by
  decide

/-- Witness for the amended claim C2 at concrete inputs. -/
theorem claim_C2_witness :
    ("date" : String) ∈
      SqlLineageSQLParser.get_tables ⟨["<default>.__d_a_t_e"], [], false⟩ ∧
    ("date" : String) ∈ SqlLineageSQLParser.get_columns ⟨[], ["__d_a_t_e"], false⟩ := by
  constructor
  · exact claim_C2_amended.2.2.1 ⟨["<default>.__d_a_t_e"], [], false⟩
      "<default>.__d_a_t_e" (by decide) (by decide)
  · exact claim_C2_amended.2.2.2 ⟨[], ["__d_a_t_e"], false⟩ (by decide)

/-- Claim C3, amended.  Both engines' `get_tables` always sorts ascending
(`result.sort()`), so the output is sorted for every input; but neither
deduplicates after the post-processing, so the output is duplicate-free only
when the post-processed names (after `<default>.` stripping and sentinel
reversal for the full-graph engine; the third-party list itself for the
light-weight engine) are pairwise distinct. -/
theorem claim_C3_amended :
    (∀ h : SLHolder,
       List.Sorted pyLe (SqlLineageSQLParser.get_tables h) ∧
       ((SqlLineageSQLParser.tableNames h).Nodup →
         (SqlLineageSQLParser.get_tables h).Nodup)) ∧
    (∀ st : MState,
       List.Sorted pyLe (MetadataSQLSQLParser.get_tables st) ∧
       (st.tables.Nodup → (MetadataSQLSQLParser.get_tables st).Nodup)) := by
  constructor
  · intro h
    constructor
    · exact List.sorted_insertionSort pyLe (SqlLineageSQLParser.tableNames h)
    · intro hnd
      exact (List.perm_insertionSort pyLe (SqlLineageSQLParser.tableNames h)).nodup_iff.mpr hnd
  · intro st
    constructor
    · exact List.sorted_insertionSort pyLe st.tables
    · intro hnd
      exact (List.perm_insertionSort pyLe st.tables).nodup_iff.mpr hnd

/-- Counterexample to claim C3 as stated: two distinct source-table names —
one the date sentinel under the `<default>` schema, one the bare date
sentinel — are both post-processed to `date`, and `get_tables` never
deduplicates after that mapping, so its output contains a duplicate. -/
theorem claim_C3_counterexample :
    (["<default>.__d_a_t_e", "__d_a_t_e"] : List String).Nodup ∧
    SqlLineageSQLParser.get_tables ⟨["<default>.__d_a_t_e", "__d_a_t_e"], [], false⟩ =
      ["date", "date"] ∧
    ¬ (SqlLineageSQLParser.get_tables
        ⟨["<default>.__d_a_t_e", "__d_a_t_e"], [], false⟩).Nodup := by
  decide

/-- Witness for the amended claim C3 at concrete inputs. -/
theorem claim_C3_witness :
    List.Sorted pyLe
      (SqlLineageSQLParser.get_tables ⟨["<default>.t2", "<default>.t1"], [], false⟩) ∧
    (SqlLineageSQLParser.get_tables ⟨["<default>.t2", "<default>.t1"], [], false⟩).Nodup ∧
    List.Sorted pyLe (MetadataSQLSQLParser.get_tables ⟨["b", "a"], [], none, none, []⟩) ∧
    (MetadataSQLSQLParser.get_tables ⟨["b", "a"], [], none, none, []⟩).Nodup := by
  refine ⟨(claim_C3_amended.1 _).1, (claim_C3_amended.1 _).2 (by decide),
    (claim_C3_amended.2 _).1, (claim_C3_amended.2 _).2 (by decide)⟩

/-- Claim C4, amended.  On an input consisting of one maximal identifier
between two non-word characters: the full-graph engine's reserved-word
passes replace the identifier by the sentinel exactly when it case-folds to
`date` (resp. `timestamp`) — whole-word, case-insensitive, and an identifier
merely containing the word is left alone; the light-weight engine's pass is
case-sensitive and whitespace-delimited: it rewrites only when the
identifier is literally the lower-case `date` and both neighbouring
characters are whitespace (and it has no timestamp pass at all). -/
theorem claim_C4_amended :
    ∀ (a b : Char) (id : List Char),
      isWordChar a = false → isWordChar b = false → id ≠ [] →
      (∀ c ∈ id, isWordChar c = true) →
      SqlLineageSQLParser.datePass (a :: id ++ [b]) =
        a :: (if id.map lowerChar = DATE_PAT then DATE_SWAP_TOKEN.data else id) ++ [b] ∧
      SqlLineageSQLParser.timestampPass (a :: id ++ [b]) =
        a :: (if id.map lowerChar = TIMESTAMP_PAT then TIMESTAMP_SWAP_TOKEN.data else id)
          ++ [b] ∧
      msqlDatePass (a :: id ++ [b]) =
        (if a.isWhitespace = true ∧ id = DATE_PAT ∧ b.isWhitespace = true
         then (" " ++ DATE_SWAP_TOKEN ++ " ").data
         else a :: id ++ [b]) := by
  intro a b id ha hb hne hid
  refine ⟨?_, ?_, msqlDatePass_ident a b id hb hne hid⟩
  · exact subWordCI_ident DATE_PAT DATE_SWAP_TOKEN.data (by decide) (by decide)
      a b id ha hb hne hid
  · exact subWordCI_ident TIMESTAMP_PAT TIMESTAMP_SWAP_TOKEN.data (by decide) (by decide)
      a b id ha hb hne hid

/-- Counterexample to claim C4 as stated: the word `DATE` between two spaces
is a whole-word, case-insensitive occurrence of the reserved word, yet the
light-weight engine's normalisation leaves it untouched (its pass is
`re.sub(r"\sdate\s", ...)` with no IGNORECASE), while the full-graph
engine's normalisation does substitute the sentinel — so whole-word
case-insensitive replacement does not hold for every engine. -/
theorem claim_C4_counterexample :
    MetadataSQLSQLParser.normalize ((" DATE ").data) = (" DATE ").data ∧
    SqlLineageSQLParser.normalize ((" DATE ").data) =
      (" " ++ DATE_SWAP_TOKEN ++ " ").data := by
  decide

/-- Witness for the amended claim C4 at concrete inputs. -/
theorem claim_C4_witness :
    SqlLineageSQLParser.datePass (' ' :: ("dates").data ++ [' ']) =
      ' ' :: ("dates").data ++ [' '] ∧
    msqlDatePass (' ' :: ("date").data ++ [' ']) =
      (" " ++ DATE_SWAP_TOKEN ++ " ").data := by
  constructor
  · have h := (claim_C4_amended ' ' ' ' (("dates").data)
      (by decide) (by decide) (by decide) (by decide)).1
    rw [h]
    decide
  · have h := (claim_C4_amended ' ' ' ' (("date").data)
      (by decide) (by decide) (by decide) (by decide)).2.2
    rw [h]
    decide

/-- Claim C6.  Both engines' normalisation truncates the query at the first
occurrence of the `lateral flatten` marker before any further processing:
when the marker occurs, the normalised text of the whole query equals the
normalised text of the prefix preceding the marker's first occurrence (which
itself contains no marker), so everything derived downstream — the text
handed to the third-party parser, hence all table and column lineage — comes
from that prefix only. -/
theorem claim_C6 :
    ∀ l : List Char, occursIn LATERAL_MARKER l = true →
      SqlLineageSQLParser.normalize l =
        SqlLineageSQLParser.normalize (truncateLateral l) ∧
      MetadataSQLSQLParser.normalize l =
        MetadataSQLSQLParser.normalize (truncateLateral l) ∧
      occursIn LATERAL_MARKER (truncateLateral l) = false := by
  intro l hocc
  cases hs : splitAt1 LATERAL_MARKER l with
  | none =>
    exfalso
    rw [(splitAt1_none_iff l).mp hs] at hocc
    exact Bool.false_eq_true.mp hocc
  | some ab =>
    obtain ⟨a, b⟩ := ab
    obtain ⟨-, ha, -⟩ := splitAt1_some (by decide) hs
    have htr : truncateLateral l = a := by
      unfold truncateLateral
      rw [hs]
    have htr2 : truncateLateral a = a := truncateLateral_no_occ ha
    refine ⟨?_, ?_, by rw [htr]; exact ha⟩
    · unfold SqlLineageSQLParser.normalize
      rw [htr, htr2]
    · unfold MetadataSQLSQLParser.normalize
      rw [htr, htr2]

/-- Witness for claim C6 at a concrete input. -/
theorem claim_C6_witness :
    occursIn LATERAL_MARKER (("SELECT x FROM t, lateral flatten(c) f").data) = true ∧
    SqlLineageSQLParser.normalize (("SELECT x FROM t, lateral flatten(c) f").data) =
      SqlLineageSQLParser.normalize
        (truncateLateral (("SELECT x FROM t, lateral flatten(c) f").data)) ∧
    truncateLateral (("SELECT x FROM t, lateral flatten(c) f").data) =
      ("SELECT x FROM t, ").data := by
  refine ⟨by decide, (claim_C6 _ (by decide)).1, by decide⟩

/-- Claim C7.  Every name returned by the full-graph engine's `get_columns`
is free of the wildcard and call-expression markers `*`, `(`, `)` (terminal
columns whose raw name contains one are filtered out before the result set
is built), while `get_tables` is computed from the holder's source tables
alone, unaffected by which column names are present or filtered. -/
theorem claim_C7 :
    (∀ (h : SLHolder) (s : String), s ∈ SqlLineageSQLParser.get_columns h →
       SqlLineageSQLParser.hasMarkerChar s = false) ∧
    (∀ (tables cols cols' : List String) (j j' : Bool),
       SqlLineageSQLParser.get_tables ⟨tables, cols, j⟩ =
         SqlLineageSQLParser.get_tables ⟨tables, cols', j'⟩) := by
  constructor
  · intro h s hm
    have h2 := List.mem_dedup.mp hm
    rcases mem_map_swap_cases h2 with he | h3
    · rw [he]; decide
    · have h4 := List.mem_dedup.mp h3
      rcases mem_map_swap_cases h4 with he | h5
      · rw [he]; decide
      · have h6 := List.mem_dedup.mp h5
        have h7 := (List.mem_filter.mp h6).2
        cases hmk : SqlLineageSQLParser.hasMarkerChar s with
        | false => rfl
        | true => rw [hmk] at h7; exact absurd h7 (by simp)
  · intro tables cols cols' j j'
    rfl

/-- Witness for claim C7 at concrete inputs: for the holder of
`SELECT count(*) FROM t1` extended with a plain column `a`, the returned
name `a` is marker-free, and wildcard columns do not change `get_tables`. -/
theorem claim_C7_witness :
    SqlLineageSQLParser.hasMarkerChar "a" = false ∧
    SqlLineageSQLParser.get_tables ⟨["<default>.t1"], ["count(*)"], false⟩ =
      SqlLineageSQLParser.get_tables ⟨["<default>.t1"], ["a"], true⟩ := by
  constructor
  · exact claim_C7.1 ⟨["<default>.t1"], ["count(*)", "a"], false⟩ "a" (by decide)
  · exact claim_C7.2 ["<default>.t1"] ["count(*)"] ["a"] false true

/-- Claim C8.  `DefaultSQLParser` is pure delegation to the full
dependency-graph engine: it normalises the unchanged query text exactly as
`SqlLineageSQLParser` does, and its `get_tables` and `get_columns` agree
with `SqlLineageSQLParser`'s on every analysis result. -/
theorem claim_C8 :
    DefaultSQLParser.normalize = SqlLineageSQLParser.normalize ∧
    (∀ h : SLHolder, DefaultSQLParser.get_tables h = SqlLineageSQLParser.get_tables h) ∧
    (∀ h : SLHolder, DefaultSQLParser.get_columns h = SqlLineageSQLParser.get_columns h) :=
  ⟨rfl, fun _ => rfl, fun _ => rfl⟩

/-- Claim C9.  Normalisation is a total function (every pass is a
structurally terminating scanner), and on an input containing none of the
rewrite triggers — the `lateral flatten` marker, a case-insensitive
occurrence of `date`, `timestamp` or `encode`, or a `${` template opener —
every pass of both engines is a no-op, so the text handed to the third-party
parser equals the original input. -/
theorem claim_C9 :
    ∀ l : List Char,
      occursIn LATERAL_MARKER l = false →
      occursIn DATE_PAT (l.map lowerChar) = false →
      occursIn TIMESTAMP_PAT (l.map lowerChar) = false →
      occursIn ENCODE_PAT (l.map lowerChar) = false →
      occursIn DOLLAR_BRACE l = false →
      SqlLineageSQLParser.normalize l = l ∧ MetadataSQLSQLParser.normalize l = l := by
  intro l h1 h2 h3 h4 h5
  have htr : truncateLateral l = l := truncateLateral_no_occ h1
  have hd : SqlLineageSQLParser.datePass l = l := by
    unfold SqlLineageSQLParser.datePass subWordCI
    exact swScan_no_occ DATE_PAT DATE_SWAP_TOKEN.data l l.length false h2
  have hlk : lookPass l = l := by
    unfold lookPass
    exact lookScan_no_occ l l.length h5
  have hts : SqlLineageSQLParser.timestampPass l = l := by
    unfold SqlLineageSQLParser.timestampPass subWordCI
    exact swScan_no_occ TIMESTAMP_PAT TIMESTAMP_SWAP_TOKEN.data l l.length false h3
  have henc : ∀ ci : Bool, encPass ci l = l := by
    intro ci
    unfold encPass
    exact encScan_no_occ ci l l.length h4
  have htp : templPass l = l := by
    unfold templPass
    exact templScan_no_occ l l.length h5
  have hmd : msqlDatePass l = l := by
    unfold msqlDatePass
    exact msqlDateScan_no_occ l l.length (not_occursIn_of_lower (by decide) h2)
  constructor
  · unfold SqlLineageSQLParser.normalize
    rw [htr, hd, hlk, hts, henc true, htp]
  · unfold MetadataSQLSQLParser.normalize
    rw [htr, hmd, henc false]

/-- Witness for claim C9 at a concrete input. -/
theorem claim_C9_witness :
    SqlLineageSQLParser.normalize (("SELECT a FROM t1").data) =
      ("SELECT a FROM t1").data ∧
    MetadataSQLSQLParser.normalize (("SELECT a FROM t1").data) =
      ("SELECT a FROM t1").data :=
  claim_C9 (("SELECT a FROM t1").data) (by decide) (by decide) (by decide) (by decide)
    (by decide)

/-- Claim C10, amended.  The light-weight engine's `get_columns` drops
select items reported as `NULL` or as nested lists before alias substitution
and sentinel reversal — so nested items never influence the output, and a
column literally named `NULL` is silently omitted; but alias substitution
can reintroduce the string `NULL` when an output alias is itself named
`NULL`, so the output is `NULL`-free only when no select alias is named
`NULL`. -/
theorem claim_C10_amended :
    (∀ st : MState, ("NULL" : String) ∉ st.aliasesSelect.getD [] →
       ("NULL" : String) ∉ MetadataSQLSQLParser.get_columns st) ∧
    (∀ (t : List String) (pre post : List SelItem) (xs : List String)
       (j : Option (List SelItem)) (al : Option (List String))
       (m : List (String × String)),
       MetadataSQLSQLParser.get_columns ⟨t, pre ++ SelItem.sub xs :: post, j, al, m⟩ =
         MetadataSQLSQLParser.get_columns ⟨t, pre ++ post, j, al, m⟩) := by
  constructor
  · intro st hna hm
    cases hj : st.joinCols.isSome with
    | true => simp [MetadataSQLSQLParser.get_columns, hj] at hm
    | false =>
      simp only [MetadataSQLSQLParser.get_columns, hj, Bool.false_eq_true, if_false] at hm
      rcases mem_map_swap_cases hm with he | hmem
      · exact absurd he (by decide)
      · rcases foldl_alias_mem st.columnsAliases (st.aliasesSelect.getD []) _ _ hmem with
          hc | ha
        · have h2 := (List.mem_filter.mp hc).2
          simp at h2
        · exact hna ha
  · intro t pre post xs j al m
    have hfm : (pre ++ SelItem.sub xs :: post).filterMap MetadataSQLSQLParser.itemStr =
        (pre ++ post).filterMap MetadataSQLSQLParser.itemStr := by
      simp [List.filterMap_append, List.filterMap_cons, MetadataSQLSQLParser.itemStr]
    cases hj : j.isSome with
    | true => simp [MetadataSQLSQLParser.get_columns, hj]
    | false =>
      simp only [MetadataSQLSQLParser.get_columns, hj, Bool.false_eq_true, if_false]
      rw [hfm]

/-- Counterexample to claim C10 as stated: with one select column `x` and an
output alias literally named `NULL` for it, the alias-substitution loop
rewrites `x` into `NULL`, so the returned column list is `["NULL"]` — the
result can contain the string `NULL`. -/
theorem claim_C10_counterexample :
    MetadataSQLSQLParser.get_columns
      ⟨["t"], [SelItem.str "x"], none, some ["NULL"], [("NULL", "x")]⟩ = ["NULL"] ∧
    ("NULL" : String) ∈ MetadataSQLSQLParser.get_columns
      ⟨["t"], [SelItem.str "x"], none, some ["NULL"], [("NULL", "x")]⟩ := by
  decide

/-- Witness for the amended claim C10 at concrete inputs. -/
theorem claim_C10_witness :
    ("NULL" : String) ∉ MetadataSQLSQLParser.get_columns
      ⟨[], [SelItem.str "a", SelItem.str "NULL"], none, some ["c"], [("c", "a")]⟩ ∧
    MetadataSQLSQLParser.get_columns
      ⟨[], [SelItem.str "a", SelItem.sub ["z"]], none, none, []⟩ =
      MetadataSQLSQLParser.get_columns ⟨[], [SelItem.str "a"], none, none, []⟩ := by
  constructor
  · exact claim_C10_amended.1
      ⟨[], [SelItem.str "a", SelItem.str "NULL"], none, some ["c"], [("c", "a")]⟩
      (by decide)
  · exact claim_C10_amended.2 [] [SelItem.str "a"] [] ["z"] none none []
